import Mathlib

/-!
Verification of the soda repository (pointlander/soda).

This file gives a shallow embedding, in Lean 4, of the parts of the Go
source that the checked claims are about:

* `mixer.go` : the sliding-window `Histogram` (circular buffer plus a
  256-entry byte count vector), the `Mixer` (order-0 and order-1 banks of
  histograms plus a Markov context), and the row-normalisation step of
  `Mixer.Mix`.
* `soda.go` : the on-disk index format written by `Build` and read by
  `LoadHeader` (header lines of 1032 bytes, entry lines of 1033 bytes,
  prefix sums over the bucket counts), the nearest-bucket scan of
  `process`, the bucket ranking and shard search of `Soda`, the
  similarity-graph construction, and the cumulative sampling loop.

Representation choices:

* Go byte and integer values are modelled as `ℕ`, with an explicit
  `% 256` where the Go code increments a `byte` counter, so that
  wrap-around behaviour is captured faithfully.
* `float32` values that only travel through the serialisation layer are
  modelled by their 32-bit patterns (a `ℕ` below `2 ^ 32`): the Go code
  round-trips them through `math.Float32bits` / `math.Float32frombits`,
  which is exact on bit patterns.
* Where the Go code performs floating-point division and comparison on
  nonnegative values (histogram normalisation, the sampling loop), values
  are modelled by `FV`, rationals extended with `inf` and `nan`, with the
  IEEE rules used on the nonnegative operands that occur there:
  `x / 0 = inf` for `x > 0`, `0 / 0 = nan`, every comparison with `nan`
  is false, and `x < inf` is true for finite `x`.
* Cosine similarity (`CS`, defined in a repository file that is not part
  of the given sources) is kept abstract: definitions that only consume
  similarity scores are parameterised by a score function, and theorems
  quantify over it.  The spec states that cosine similarity ranges over
  `[-1, 1]`, so negative scores used in counterexamples are realisable
  (for instance `CS((1,0),(-4,3)) = -4/5`).
-/

set_option maxRecDepth 4000

namespace Soda

/-- Rationals extended with `inf` and `nan`, modelling the IEEE values that
arise from the nonnegative floating-point arithmetic in the Go code. -/
inductive FV where
  | fin : ℚ → FV
  | inf : FV
  | nan : FV
  deriving DecidableEq, Repr

/-- Addition on `FV`, restricted to the nonnegative operands occurring in
the code: adding `inf` to a finite value gives `inf`, `nan` absorbs. -/
def fvAdd : FV → FV → FV
  | FV.nan, _ => FV.nan
  | _, FV.nan => FV.nan
  | FV.inf, _ => FV.inf
  | _, FV.inf => FV.inf
  | FV.fin a, FV.fin b => FV.fin (a + b)

/-- Division on `FV` for nonnegative operands: a positive finite value
divided by zero gives `inf`, `0 / 0` gives `nan`. -/
def fvDiv : FV → FV → FV
  | FV.nan, _ => FV.nan
  | _, FV.nan => FV.nan
  | FV.inf, FV.inf => FV.nan
  | FV.inf, FV.fin _ => FV.inf
  | FV.fin _, FV.inf => FV.fin 0
  | FV.fin a, FV.fin b =>
      if b = 0 then (if a = 0 then FV.nan else FV.inf) else FV.fin (a / b)

/-- Strict comparison on `FV`: every comparison involving `nan` is false,
and every finite value is less than `inf`. -/
def fvLt : FV → FV → Bool
  | FV.nan, _ => false
  | _, FV.nan => false
  | FV.fin a, FV.fin b => decide (a < b)
  | FV.fin _, FV.inf => true
  | FV.inf, _ => false

/-- The buffered histogram of `mixer.go`: a 256-entry count vector of
bytes, a 128-slot circular buffer, the current buffer index and the
window size.  The vector and buffer are modelled as functions from `ℕ`;
the Go arrays only ever use indices below 256 and 128 respectively. -/
structure Histogram where
  vector : ℕ → ℕ
  buffer : ℕ → ℕ
  index : ℕ
  size : ℕ

/-- `NewHistogram` from `mixer.go`: all counts and buffer slots start at
zero. -/
def newHistogram (size : ℕ) : Histogram :=
  { vector := fun _ => 0, buffer := fun _ => 0, index := 0, size := size }

/-- `Histogram.Add` from `mixer.go`: advance the circular index, decrement
the count of the displaced symbol when that count is positive, store the
new symbol and increment its count.  The increment is taken `% 256`
because the Go count vector is an array of bytes. -/
def Histogram.add (h : Histogram) (s : ℕ) : Histogram :=
  let index := (h.index + 1) % h.size
  let symbol := h.buffer index
  let vector :=
    if 0 < h.vector symbol then
      Function.update h.vector symbol (h.vector symbol - 1)
    else h.vector
  { vector := Function.update vector s ((vector s + 1) % 256)
    buffer := Function.update h.buffer index s
    index := index
    size := h.size }

/-- Folding `Histogram.Add` over a list of symbols. -/
def Histogram.addAll (h : Histogram) (ws : List ℕ) : Histogram :=
  ws.foldl Histogram.add h

/-- Variant of `Histogram.add` in which the count increment is a plain
natural-number increment, with no `% 256` wrap.  Used to state that the
byte counters of the real code never wrap. -/
def Histogram.addNoWrap (h : Histogram) (s : ℕ) : Histogram :=
  let index := (h.index + 1) % h.size
  let symbol := h.buffer index
  let vector :=
    if 0 < h.vector symbol then
      Function.update h.vector symbol (h.vector symbol - 1)
    else h.vector
  { vector := Function.update vector s (vector s + 1)
    buffer := Function.update h.buffer index s
    index := index
    size := h.size }

/-- Folding `Histogram.addNoWrap` over a list of symbols. -/
def Histogram.addAllNoWrap (h : Histogram) (ws : List ℕ) : Histogram :=
  ws.foldl Histogram.addNoWrap h

/-- The sum, over the 256 symbols, of the count stored for that symbol. -/
def Histogram.total (h : Histogram) : ℕ :=
  ∑ t ∈ Finset.range 256, h.vector t

/-- The multiset of symbols currently held in the first `size` buffer
slots, counted for one particular symbol. -/
def Histogram.bufCount (h : Histogram) (t : ℕ) : ℕ :=
  ((Finset.range h.size).filter (fun i => h.buffer i = t)).card

/-- `Order` from `mixer.go`. -/
def Order : ℕ := 7

/-- The bank of eight histograms with geometric capacities created inside
`NewMixer` in `mixer.go`. -/
def newBank : List Histogram :=
  [newHistogram 1, newHistogram 2, newHistogram 4, newHistogram 8,
   newHistogram 16, newHistogram 32, newHistogram 64, newHistogram 128]

/-- The `Mixer` of `mixer.go`: a Markov context (an array of bytes,
modelled as a function from `ℕ`, of which only indices at most `Order`
are meaningful), the order-0 bank and 256 order-1 banks. -/
structure Mixer where
  markov : ℕ → ℕ
  order0 : List Histogram
  order1 : ℕ → List Histogram

/-- `NewMixer` from `mixer.go`. -/
def newMixer : Mixer :=
  { markov := fun _ => 0
    order0 := newBank
    order1 := fun _ => newBank }

/-- `Mixer.Add` from `mixer.go`: feed the symbol to every order-0
histogram and to the order-1 bank selected by the previous symbol
(`Markov[0]`), then shift the Markov context, prepending the symbol. -/
def Mixer.add (m : Mixer) (s : ℕ) : Mixer :=
  let index := m.markov 0
  { markov := fun k => if k = 0 then s else m.markov (k - 1)
    order0 := m.order0.map (fun h => h.add s)
    order1 := Function.update m.order1 index ((m.order1 index).map (fun h => h.add s)) }

/-- The sum computed inside `Mixer.Mix` for one histogram row, as a
rational (the Go code accumulates the 256 byte counts into a float). -/
def rowSum (h : Histogram) : ℚ :=
  ∑ t ∈ Finset.range 256, (h.vector t : ℚ)

/-- One row of the matrix built by `Mixer.Mix` in `mixer.go`: every count
is divided by the row sum, with no test that the sum is nonzero. -/
def mixRow (h : Histogram) : List FV :=
  (List.range 256).map (fun t => fvDiv (FV.fin (h.vector t)) (FV.fin (rowSum h)))

/-- The sixteen rows built by `Mixer.Mix` in `mixer.go` before they are
passed to `SelfAttention`: the order-0 bank followed by the order-1 bank
selected by `Markov[0]`. -/
def mixRows (m : Mixer) : List (List FV) :=
  (m.order0 ++ m.order1 (m.markov 0)).map mixRow

/-! ### The diffusion sampling loop of `Soda` (soda.go lines 604 to 616)

The Go code is

  index, total := 0, 0.0
  for j := len(vectors); j < length; j++ { total += ranks[j] }
  sum, selection := 0.0, rng.Float64()
  for j := len(vectors); j < length; j++ {
    if selection < sum { index = j; break }
    sum += ranks[j] / sum
  }
  index -= len(vectors)

`total` is computed and never used again; the loop divides each rank by
the running value of `sum` itself, which starts at zero. -/

/-- The second loop above, over the list of candidate node indices `js`,
carrying the running `sum` and returning the selected absolute index
(`0` when the loop never breaks). -/
def sodaSelectLoop (selection : ℚ) (ranks : List FV) : List ℕ → FV → ℕ
  | [], _ => 0
  | j :: rest, sum =>
      if fvLt (FV.fin selection) sum then j
      else sodaSelectLoop selection ranks rest (fvAdd sum (fvDiv (ranks.getD j FV.nan) sum))

/-- The sampling step of `Soda`: given the number of retained query
vectors (`len(vectors)`), the full rank array and the uniform draw,
return the final value of `index - len(vectors)` as an integer. -/
def sodaSelect (numVectors : ℕ) (ranks : List FV) (selection : ℚ) : ℤ :=
  (sodaSelectLoop selection ranks
      (List.range' numVectors (ranks.length - numVectors)) (FV.fin 0) : ℤ)
    - (numVectors : ℤ)

/-- The value of `total` computed (and then never used) by the sampling
step of `Soda`. -/
def sodaTotal (numVectors : ℕ) (ranks : List FV) : FV :=
  (ranks.drop numVectors).foldl fvAdd (FV.fin 0)

/-- Modelled from the spec: sampling one candidate by drawing a uniform
number and comparing it against the cumulative distribution of the
normalised candidate weights, returning the first index whose cumulative
probability exceeds the draw. -/
def specCdfLoop (selection : ℚ) : List ℚ → ℚ → ℕ → ℕ
  | [], _, j => j
  | w :: rest, acc, j =>
      if selection < acc + w then j else specCdfLoop selection rest (acc + w) (j + 1)

/-- Modelled from the spec: inverse-CDF sampling over weights normalised
by their total. -/
def specCdfSelect (weights : List ℚ) (selection : ℚ) : ℕ :=
  specCdfLoop selection (weights.map (fun w => w / weights.sum)) 0 0

/-! ### The similarity graph of `Soda` (soda.go lines 581 to 599)

The Go code loops `j` and `k` over all nodes (the retained query vectors
followed by the retrieved candidates), computes `cs := CS(x, y)` from the
vectors of nodes `j` and `k`, and then calls
`graph.Link(uint32(i), uint32(j), float64(cs))`, where `i` is the index
of the current generation step, not a node. -/

/-- The vector of node `j`: one of the retained query vectors when
`j < vecs.length`, otherwise one of the candidate vectors. -/
def nodeVec (vecs cands : List (List ℚ)) (j : ℕ) : List ℚ :=
  if j < vecs.length then vecs.getD j [] else cands.getD (j - vecs.length) []

/-- The sequence of `graph.Link(source, target, weight)` calls issued by
the generation step `i` of `Soda`, parameterised by the similarity
function `cs`. -/
def sodaGraphLinks (i : ℕ) (vecs cands : List (List ℚ))
    (cs : List ℚ → List ℚ → ℚ) : List (ℕ × ℕ × ℚ) :=
  (List.range (vecs.length + cands.length)).flatMap (fun j =>
    (List.range (vecs.length + cands.length)).map (fun k =>
      (i, j, cs (nodeVec vecs cands j) (nodeVec vecs cands k))))

/-- Modelled from the spec: the complete directed graph on the nodes, in
which the edge from node `j` to node `k` carries the similarity of the
vectors of `j` and `k`. -/
def specGraphLinks (vecs cands : List (List ℚ))
    (cs : List ℚ → List ℚ → ℚ) : List (ℕ × ℕ × ℚ) :=
  (List.range (vecs.length + cands.length)).flatMap (fun j =>
    (List.range (vecs.length + cands.length)).map (fun k =>
      (j, k, cs (nodeVec vecs cands j) (nodeVec vecs cands k))))

/-! ### Nearest-bucket classification (`process`, soda.go lines 84 to 96)

The Go code scans the model with `index, max := 0, float32(0.0)` and
takes `index = i` whenever `CS(query, model[i].Vector) > max`. -/

/-- The scan of `process`, parameterised by the score of each bucket:
fold over bucket indices `0, ..., n-1`, keeping the pair
`(index, max)` and replacing it whenever the next score is strictly
greater than the current `max`, which starts at `0`. -/
def processSelect (score : ℕ → ℚ) (n : ℕ) : ℕ × ℚ :=
  (List.range n).foldl
    (fun p i => if p.2 < score i then (i, score i) else p) (0, 0)

/-! ### Bucket ranking and shard search in `Soda` (soda.go lines 534 to 579)

The Go code allocates `indexes := make([]Index, len(h))`, skips buckets
with `sizes[i] == 0` (leaving the zero value `{Index: 0, Value: 0}` in
their slot), fills the remaining slots with `(i, CS(centroid, query))`,
sorts the whole array by descending `Value`, and dispatches the first
`cpus` slots to shard workers.  Each worker scores every entry of its
bucket, sorts them by descending similarity, and returns the first
`min(64, bucket_size)` of them; the orchestrator concatenates the
returned lists and re-sorts the concatenation by descending score. -/

/-- Descending order on score-carrying pairs. -/
def descRel {α : Type} (a b : α × ℚ) : Prop := b.2 ≤ a.2

instance {α : Type} : DecidableRel (descRel (α := α)) :=
  fun a b => inferInstanceAs (Decidable (b.2 ≤ a.2))

instance {α : Type} : IsTotal (α × ℚ) descRel :=
  ⟨fun a b => le_total b.2 a.2⟩

instance {α : Type} : IsTrans (α × ℚ) descRel :=
  ⟨fun _ _ _ h1 h2 => le_trans h2 h1⟩

/-- The ranked bucket array of `Soda`: one slot per bucket, a zero-count
bucket keeping the zero value `(0, 0)` of its slot, sorted by descending
value. -/
def rankedBuckets (score : ℕ → ℚ) (sizes : List ℕ) : List (ℕ × ℚ) :=
  List.insertionSort descRel
    ((List.range sizes.length).map (fun i =>
      if sizes.getD i 0 = 0 then (0, 0) else (i, score i)))

/-- The bucket indices dispatched to the `cpus` shard workers. -/
def dispatchedBuckets (score : ℕ → ℚ) (sizes : List ℕ) (cpus : ℕ) : List ℕ :=
  ((rankedBuckets score sizes).take cpus).map Prod.fst

/-- The shard worker of `Soda` (the `search` closure): score every entry
of the bucket, sort by descending score, return the first
`min(64, bucket_size)` results. -/
def searchWorker {α : Type} (score : α → ℚ) (entries : List α) : List (α × ℚ) :=
  (List.insertionSort descRel (entries.map (fun e => (e, score e)))).take
    (min 64 entries.length)

/-- The orchestrator of `Soda`: concatenate the lists returned by the
workers and re-sort the concatenation by descending score. -/
def mergedResults {α : Type} (lists : List (List (α × ℚ))) : List (α × ℚ) :=
  List.insertionSort descRel lists.flatten

/-! ### The persisted index format (soda.go)

`Build` writes, per bucket, 256 little-endian float32 vector components
followed by the 8-byte little-endian count; then, per bucket in the same
order, every member entry as 256 vector components, one symbol byte and
an 8-byte position.  `LoadHeader` reads the header back and builds the
prefix sums of the counts.  Float components are modelled by their
32-bit patterns. -/

/-- `ModelSize` from soda.go. -/
def ModelSize : ℕ := 8

/-- `HeaderLineSize` from soda.go. -/
def HeaderLineSize : ℕ := 4 * 256 + 1 * 8

/-- `EntryLineSize` from soda.go. -/
def EntryLineSize : ℕ := 4 * 256 + 1 + 8

/-- `Offset` from soda.go, the byte offset at which the body starts. -/
def Offset : ℕ := ModelSize * 1024 * HeaderLineSize

/-- Little-endian byte decomposition of a value into `w` bytes, as
written by `Build` (`byte((bits >> (8*i)) & 0xFF)`). -/
def bytesOfNat : ℕ → ℕ → List ℕ
  | 0, _ => []
  | w + 1, x => x % 256 :: bytesOfNat w (x / 256)

/-- Little-endian byte recomposition, as read by `LoadHeader`
(`bits |= uint32(buffer[i]) << (8 * i)`). -/
def natOfBytes (bs : List ℕ) : ℕ :=
  bs.foldr (fun b acc => b + 256 * acc) 0

/-- One member entry of a bucket, as persisted by `Build`: the 256
float32 bit patterns of its feature vector, its symbol byte, and its
8-byte original position. -/
structure Entry where
  vec : List ℕ
  symbol : ℕ
  pos : ℕ
  deriving DecidableEq, Repr

/-- One bucket of the in-memory model at serialisation time: the 256
float32 bit patterns of the centroid, the membership count, and the
member entries in the order in which the linked-list walk of `Build`
visits them. -/
structure SBucket where
  vec : List ℕ
  count : ℕ
  members : List Entry
  deriving DecidableEq, Repr

/-- The header line written by `Build` for one bucket. -/
def serializeHeaderLine (b : SBucket) : List ℕ :=
  b.vec.flatMap (bytesOfNat 4) ++ bytesOfNat 8 b.count

/-- The body line written by `Build` for one entry. -/
def serializeEntry (e : Entry) : List ℕ :=
  e.vec.flatMap (bytesOfNat 4) ++ [e.symbol] ++ bytesOfNat 8 e.pos

/-- The body block written by `Build` for one bucket: its member entries,
contiguously. -/
def serializeBucketBody (b : SBucket) : List ℕ :=
  b.members.flatMap serializeEntry

/-- The whole file written by `Build`: all header lines in bucket order,
then all body blocks in bucket order. -/
def serializeFile (model : List SBucket) : List ℕ :=
  model.flatMap serializeHeaderLine ++ model.flatMap serializeBucketBody

/-- The parse of one header line performed by `LoadHeader`: 256 vector
components of four bytes each, then the eight count bytes. -/
def parseHeaderLine (bs : List ℕ) : List ℕ × ℕ :=
  ((List.range 256).map (fun k => natOfBytes ((bs.drop (4 * k)).take 4)),
   natOfBytes ((bs.drop 1024).take 8))

/-- The parse of the first `n` header lines of a file. -/
def parseHeader (n : ℕ) (bs : List ℕ) : List (List ℕ × ℕ) :=
  (List.range n).map (fun i => parseHeaderLine (bs.drop (HeaderLineSize * i)))

/-- The prefix-sum loop of `LoadHeader`:
`sums[i] = sum; sum += sizes[i]`. -/
def loadSums (sizes : List ℕ) : List ℕ :=
  (sizes.foldl (fun (p : List ℕ × ℕ) v => (p.1 ++ [p.2], p.2 + v)) ([], 0)).1

/-! ### Concrete inputs used by counterexamples and witnesses -/

/-- A concrete bucket-score function for the C9 counterexample: two
buckets whose centroids both have negative cosine similarity to the
query (such values are realisable, for instance
`CS((1,0,...), (-4,3,0,...)) = -4/5`). -/
def c9score : ℕ → ℚ := fun i => if i = 0 then -4/5 else -3/5

/-- A concrete positive bucket-score function for the C9 witness. -/
def c9wscore : ℕ → ℚ := fun i => if i = 0 then 4/5 else 3/5

/-- The bucket-count list for the C8 counterexample: bucket `0` is
empty, bucket `1` has three members. -/
def c8sizes : List ℕ := [0, 3]

/-- The bucket-count list for the C8 witness. -/
def c8wsizes : List ℕ := [2, 0, 3]

/-- A bucket-score function with positive values for the C8 witness. -/
def c8wscore : ℕ → ℚ := fun i => if i = 0 then 4/5 else 3/5

/-- A concrete two-bucket model used by the C4 and C5 witnesses. -/
def wmodel : List SBucket :=
  [{ vec := List.replicate 256 3, count := 1,
     members := [{ vec := List.replicate 256 5, symbol := 7, pos := 3 }] },
   { vec := List.replicate 256 9, count := 2,
     members := [{ vec := List.replicate 256 1, symbol := 2, pos := 11 },
                 { vec := List.replicate 256 4, symbol := 0, pos := 12 }] }]

/-! ## Claims -/

/-- C1: the claim says one candidate is sampled with probability
proportional to its stationary weight, by one uniform draw against the
cumulative distribution of the normalised weights.  The code instead
adds `ranks[j] / sum` to the running `sum` itself (which starts at zero,
so the first addition divides by zero and yields `inf`), and never uses
the computed `total`.  With candidate ranks `3/10` and `7/10` and draw
`1/5`, the code selects candidate `1` while the inverse-CDF sample of
the claim selects candidate `0`; the code selects candidate `1` even for
draw `19/20`. -/
theorem c1_sampler_diverges_from_inverse_cdf :
    sodaSelect 1 [FV.fin (1/2), FV.fin (3/10), FV.fin (7/10)] (1/5) = 1 ∧
    specCdfSelect [3/10, 7/10] (1/5) = 0 ∧
    sodaSelect 1 [FV.fin (1/2), FV.fin (3/10), FV.fin (7/10)] (19/20) = 1 ∧
    sodaTotal 1 [FV.fin (1/2), FV.fin (3/10), FV.fin (7/10)] = FV.fin 1 := by
  refine ⟨?_, ?_, ?_, ?_⟩
  · norm_num [sodaSelect, sodaSelectLoop, fvLt, fvAdd, fvDiv, List.range']
  · norm_num [specCdfSelect, specCdfLoop]
  · norm_num [sodaSelect, sodaSelectLoop, fvLt, fvAdd, fvDiv, List.range']
  · norm_num [sodaTotal, fvAdd]

/-- C2: the claim says a histogram row with a zero count sum is emitted
as an all-zero row, the sum being tested before normalising.  The code
of `Mixer.Mix` performs `v / sum` with no test: on a histogram that has
never received a symbol the sum is `0` and every entry of the emitted
row is `0.0 / 0.0`, that is `NaN`, not zero.  Such a histogram is
reached by the very first query symbol: after `Add(97)` the bank
`Order1[97]` read by `Mix` is still fresh, so row 8 of the mixed matrix
is the normalisation of a fresh histogram. -/
theorem c2_mix_zero_sum_row_is_nan :
    rowSum (newHistogram 1) = 0 ∧
    mixRow (newHistogram 1) = List.replicate 256 FV.nan ∧
    (mixRows (Mixer.add newMixer 97)).getD 8 [] = mixRow (newHistogram 1) ∧
    mixRow (newHistogram 1) ≠ List.replicate 256 (FV.fin 0) := by
  have hsum : rowSum (newHistogram 1) = 0 := by simp [rowSum, newHistogram]
  have hrow : mixRow (newHistogram 1) = List.replicate 256 FV.nan := by
    unfold mixRow
    rw [List.map_congr_left (g := fun _ => FV.nan) ?_, List.map_const', List.length_range]
    intro t _
    rw [hsum]
    simp [newHistogram, fvDiv]
  refine ⟨hsum, hrow, rfl, ?_⟩
  rw [hrow]
  intro h
  have : FV.fin 0 ∈ List.replicate 256 FV.nan := by
    rw [h]; simp
  simp at this

/-- C7: the claim says the generation step builds the complete graph
linking node `j` to node `k` with their pairwise similarity.  The code
calls `graph.Link(uint32(i), uint32(j), cs)` inside the `j`/`k` loops,
where `i` is the index of the generation step: every emitted edge has
the step index as its source.  At step `5` with two nodes, every link
has source `5`, and the emitted links differ from the complete graph of
the claim. -/
theorem c7_graph_links_use_step_index :
    (∀ e ∈ sodaGraphLinks 5 [[1]] [[2]] (fun _ _ => 0), e.1 = 5) ∧
    sodaGraphLinks 5 [[1]] [[2]] (fun _ _ => 0) ≠
      specGraphLinks [[1]] [[2]] (fun _ _ => 0) := by
  decide

/-- C9 counterexample: with two buckets of scores `-4/5` and `-3/5`, the
scan of `process` keeps its initial `(index, max) = (0, 0)` because no
score exceeds `0`, so the chosen bucket `0` does not attain the maximal
similarity, which bucket `1` attains. -/
theorem c9_counterexample :
    processSelect c9score 2 = (0, 0) ∧
    ¬ (∀ j < 2, c9score j ≤ c9score (processSelect c9score 2).1) := by
  have h : processSelect c9score 2 = (0, 0) := by
    norm_num [processSelect, List.range_succ, c9score]
  refine ⟨h, fun hall => ?_⟩
  have h1 := hall 1 (by norm_num)
  rw [h] at h1
  norm_num [c9score] at h1

/-- Helper invariant for the fold of `processSelect`: the accumulator
value never decreases, bounds every processed score, and is either the
initial pair or a pair made of a processed index and its own score. -/
theorem processSelect_foldl_inv (score : ℕ → ℚ) :
    ∀ (l : List ℕ) (p : ℕ × ℚ),
      p.2 ≤ (l.foldl (fun q i => if q.2 < score i then (i, score i) else q) p).2 ∧
      (∀ i ∈ l,
        score i ≤ (l.foldl (fun q i => if q.2 < score i then (i, score i) else q) p).2) ∧
      ((l.foldl (fun q i => if q.2 < score i then (i, score i) else q) p) = p ∨
        ((l.foldl (fun q i => if q.2 < score i then (i, score i) else q) p).1 ∈ l ∧
         (l.foldl (fun q i => if q.2 < score i then (i, score i) else q) p).2 =
           score (l.foldl (fun q i => if q.2 < score i then (i, score i) else q) p).1))
  | [], p => by simp
  | i :: rest, p => by
    have step : (if p.2 < score i then (i, score i) else p) = (i, score i) ∨
        ((if p.2 < score i then (i, score i) else p) = p ∧
          score i ≤ p.2) := by
      by_cases h : p.2 < score i
      · exact Or.inl (if_pos h)
      · exact Or.inr ⟨if_neg h, le_of_not_lt h⟩
    have hstep2 : p.2 ≤ (if p.2 < score i then (i, score i) else p).2 := by
      by_cases h : p.2 < score i
      · rw [if_pos h]; exact le_of_lt h
      · rw [if_neg h]
    obtain ⟨ih1, ih2, ih3⟩ :=
      processSelect_foldl_inv score rest (if p.2 < score i then (i, score i) else p)
    rw [List.foldl_cons]
    refine ⟨le_trans hstep2 ih1, ?_, ?_⟩
    · intro j hj
      rcases List.mem_cons.mp hj with hj | hj
      · subst hj
        rcases step with h | ⟨h, hle⟩
        · rw [h] at ih1
          rw [h]
          exact ih1
        · rw [h] at ih1
          rw [h]
          exact le_trans hle ih1
      · exact ih2 j hj
    · rcases ih3 with h | ⟨hmem, heq⟩
      · rcases step with hs | ⟨hs, _⟩
        · rw [h, hs]
          exact Or.inr ⟨List.mem_cons_self i rest, rfl⟩
        · rw [h, hs]
          exact Or.inl rfl
      · exact Or.inr ⟨List.mem_cons_of_mem i hmem, heq⟩

/-- C9 amended: the bucket chosen by `process` attains the maximal
similarity over all buckets provided some bucket has strictly positive
similarity to the query (the scan starts from `(0, 0)` and only replaces
its accumulator on a strictly greater score, so when every similarity is
nonpositive it returns bucket `0` regardless of the scores). -/
theorem c9_process_nearest_amended (score : ℕ → ℚ) (n : ℕ)
    (h : ∃ i, i < n ∧ 0 < score i) :
    (processSelect score n).1 < n ∧
    (∀ j < n, score j ≤ score (processSelect score n).1) := by
  obtain ⟨i, hin, hpos⟩ := h
  obtain ⟨h1, h2, h3⟩ := processSelect_foldl_inv score (List.range n) (0, 0)
  have hscore := h2 i (List.mem_range.mpr hin)
  rcases h3 with h | ⟨hmem, heq⟩
  · exfalso
    rw [h] at hscore
    exact absurd (lt_of_lt_of_le hpos hscore) (lt_irrefl 0)
  · refine ⟨List.mem_range.mp hmem, ?_⟩
    intro j hj
    have := h2 j (List.mem_range.mpr hj)
    rw [heq] at this
    exact this

/-- Witness for the amended C9 theorem at a concrete input. -/
theorem c9_process_nearest_amended_witness :
    (∃ i, i < 2 ∧ 0 < c9wscore i) ∧
    ((processSelect c9wscore 2).1 < 2 ∧
      (∀ j < 2, c9wscore j ≤ c9wscore (processSelect c9wscore 2).1)) :=
  ⟨⟨0, by norm_num [c9wscore]⟩,
    c9_process_nearest_amended c9wscore 2 ⟨0, by norm_num [c9wscore]⟩⟩

/-- C8 counterexample: when the only nonzero bucket has negative
similarity (realisable for cosine similarity), the placeholder slot
`(0, 0)` left in the ranked array by the skipped empty bucket sorts
first, and the empty bucket `0` is dispatched to a shard worker, so a
zero-count bucket is among the top-K dispatched buckets. -/
theorem c8_counterexample :
    dispatchedBuckets (fun _ => -3/5) c8sizes 1 = [0] ∧ c8sizes.getD 0 0 = 0 := by
  constructor
  · norm_num [dispatchedBuckets, rankedBuckets, c8sizes, List.range_succ,
      List.insertionSort, List.orderedInsert, descRel]
  · rfl

/-- C8 amended: a zero-count bucket is never ranked with its own index;
its slot keeps the placeholder `(0, 0)`.  Consequently every dispatched
slot with a strictly positive ranking value refers to a bucket with a
nonzero count (so whenever the top-K ranking values are all positive, no
zero-count bucket is dispatched); and a shard worker given an empty
bucket returns the empty result list rather than failing. -/
theorem c8_empty_buckets_amended (score : ℕ → ℚ) (sizes : List ℕ) (K : ℕ)
    (h : ∀ p ∈ (rankedBuckets score sizes).take K, 0 < p.2) :
    (∀ j ∈ dispatchedBuckets score sizes K, j < sizes.length ∧ sizes.getD j 0 ≠ 0) ∧
    (∀ score2 : ℕ → ℚ, searchWorker score2 ([] : List ℕ) = []) := by
  constructor
  · intro j hj
    obtain ⟨p, hp, hpj⟩ := List.mem_map.mp hj
    have hpos := h p hp
    have hpr : p ∈ rankedBuckets score sizes := List.mem_of_mem_take hp
    have hpm : p ∈ (List.range sizes.length).map (fun i =>
        if sizes.getD i 0 = 0 then ((0 : ℕ), (0 : ℚ)) else (i, score i)) := by
      rw [rankedBuckets] at hpr
      exact (List.mem_insertionSort descRel).mp hpr
    obtain ⟨i, hi, hpi⟩ := List.mem_map.mp hpm
    by_cases hz : sizes.getD i 0 = 0
    · rw [if_pos hz] at hpi
      rw [← hpi] at hpos
      exact absurd hpos (lt_irrefl 0)
    · rw [if_neg hz] at hpi
      rw [← hpj, ← hpi]
      exact ⟨List.mem_range.mp hi, hz⟩
  · intro score2
    rfl

/-- Witness for the amended C8 theorem at a concrete input. -/
theorem c8_empty_buckets_amended_witness :
    (∀ p ∈ (rankedBuckets c8wscore c8wsizes).take 2, 0 < p.2) ∧
    ((∀ j ∈ dispatchedBuckets c8wscore c8wsizes 2,
        j < c8wsizes.length ∧ c8wsizes.getD j 0 ≠ 0) ∧
      (∀ score2 : ℕ → ℚ, searchWorker score2 ([] : List ℕ) = [])) := by
  have hh : ∀ p ∈ (rankedBuckets c8wscore c8wsizes).take 2, 0 < p.2 := by
    norm_num [rankedBuckets, c8wsizes, c8wscore, List.range_succ,
      List.insertionSort, List.orderedInsert, descRel]
  exact ⟨hh, c8_empty_buckets_amended c8wscore c8wsizes 2 hh⟩

/-- C6: for any scored bucket, the shard worker of `Soda` returns
exactly `min(64, bucket_size)` results, each carrying the score of its
entry, in descending score order; and the orchestrator re-sorts the
concatenation of the worker result lists into descending score order
before sampling.  The score function is kept abstract, so this holds in
particular for cosine similarity against the query vector. -/
theorem c6_search_results_sorted {α : Type} (score : α → ℚ) (entries : List α)
    (lists : List (List (α × ℚ))) :
    (searchWorker score entries).length = min 64 entries.length ∧
    List.Sorted descRel (searchWorker score entries) ∧
    (∀ p ∈ searchWorker score entries, p.2 = score p.1) ∧
    List.Sorted descRel (mergedResults lists) := by
  refine ⟨?_, ?_, ?_, ?_⟩
  · simp only [searchWorker, List.length_take, List.length_insertionSort,
      List.length_map]
    omega
  · exact List.Pairwise.sublist (List.take_sublist _ _)
      (List.sorted_insertionSort descRel _)
  · intro p hp
    have hp2 : p ∈ List.insertionSort descRel
        (entries.map (fun e => (e, score e))) := List.mem_of_mem_take hp
    have hp3 : p ∈ entries.map (fun e => (e, score e)) :=
      (List.mem_insertionSort descRel).mp hp2
    obtain ⟨e, _, hpe⟩ := List.mem_map.mp hp3
    rw [← hpe]
  · exact List.sorted_insertionSort descRel _

/-! ### Serialisation helper lemmas -/

/-- The little-endian decomposition into `w` bytes has length `w`. -/
theorem length_bytesOfNat : ∀ (w x : ℕ), (bytesOfNat w x).length = w
  | 0, _ => rfl
  | w + 1, x => by simp [bytesOfNat, length_bytesOfNat w]

/-- Reading back the little-endian bytes of a value below `256 ^ w`
returns the value. -/
theorem natOfBytes_bytesOfNat : ∀ (w x : ℕ), x < 256 ^ w →
    natOfBytes (bytesOfNat w x) = x
  | 0, x, h => by
      simp only [pow_zero, Nat.lt_one_iff] at h
      simp [bytesOfNat, natOfBytes, h]
  | w + 1, x, h => by
      have hdiv : x / 256 < 256 ^ w := by
        rw [Nat.div_lt_iff_lt_mul (by norm_num)]
        calc x < 256 ^ (w + 1) := h
          _ = 256 ^ w * 256 := by ring
      have ih := natOfBytes_bytesOfNat w (x / 256) hdiv
      simp only [bytesOfNat, natOfBytes, List.foldr_cons] at ih ⊢
      omega

/-- The length of a concatenation of equal-length blocks. -/
theorem flatMap_length_blocks {α : Type} (f : α → List ℕ) (c : ℕ) :
    ∀ l : List α, (∀ x ∈ l, (f x).length = c) →
      (l.flatMap f).length = c * l.length
  | [], _ => by simp
  | x :: rest, hl => by
      rw [List.flatMap_cons, List.length_append,
        flatMap_length_blocks f c rest (fun y hy => hl y (List.mem_cons_of_mem x hy)),
        hl x (List.mem_cons_self x rest), List.length_cons]
      ring

/-- Dropping `i` whole blocks from a concatenation of equal-length
blocks drops the first `i` elements. -/
theorem flatMap_drop_blocks {α : Type} (f : α → List ℕ) (c : ℕ) :
    ∀ (i : ℕ) (l : List α), (∀ x ∈ l, (f x).length = c) →
      (l.flatMap f).drop (c * i) = (l.drop i).flatMap f
  | 0, l, _ => by simp
  | i + 1, [], _ => by simp
  | i + 1, x :: rest, hl => by
      rw [List.flatMap_cons]
      have h1 : c * (i + 1) = (f x).length + c * i := by
        rw [hl x (List.mem_cons_self x rest)]; ring
      rw [h1, List.drop_append, List.drop_succ_cons]
      exact flatMap_drop_blocks f c i rest (fun y hy => hl y (List.mem_cons_of_mem x hy))

/-- A header line serialises to exactly `HeaderLineSize` bytes. -/
theorem length_serializeHeaderLine (b : SBucket) (h : b.vec.length = 256) :
    (serializeHeaderLine b).length = HeaderLineSize := by
  rw [serializeHeaderLine, List.length_append,
    flatMap_length_blocks (bytesOfNat 4) 4 b.vec (fun x _ => length_bytesOfNat 4 x),
    length_bytesOfNat, h, HeaderLineSize]

/-- A body entry serialises to exactly `EntryLineSize` bytes. -/
theorem length_serializeEntry (e : Entry) (h : e.vec.length = 256) :
    (serializeEntry e).length = EntryLineSize := by
  rw [serializeEntry, List.length_append, List.length_append,
    flatMap_length_blocks (bytesOfNat 4) 4 e.vec (fun x _ => length_bytesOfNat 4 x),
    length_bytesOfNat, h, EntryLineSize, List.length_cons, List.length_nil]

/-- Parsing a serialised header line (followed by anything) recovers the
bucket centroid bit patterns and the bucket count. -/
theorem parseHeaderLine_serializeHeaderLine (b : SBucket) (junk : List ℕ)
    (h1 : b.vec.length = 256) (h2 : ∀ x ∈ b.vec, x < 2 ^ 32)
    (h3 : b.count < 2 ^ 64) :
    parseHeaderLine (serializeHeaderLine b ++ junk) = (b.vec, b.count) := by
  have hVlen : (b.vec.flatMap (bytesOfNat 4)).length = 1024 := by
    rw [flatMap_length_blocks (bytesOfNat 4) 4 b.vec (fun x _ => length_bytesOfNat 4 x), h1]
  have hassoc : serializeHeaderLine b ++ junk
      = b.vec.flatMap (bytesOfNat 4) ++ (bytesOfNat 8 b.count ++ junk) := by
    rw [serializeHeaderLine, List.append_assoc]
  rw [parseHeaderLine, Prod.mk.injEq]
  constructor
  · apply List.ext_getElem
    · simp [h1]
    · intro i hi1 hi2
      have hi : i < 256 := by simpa using hi1
      rw [List.getElem_map, List.getElem_range, hassoc,
        List.drop_append_of_le_length (by rw [hVlen]; omega),
        flatMap_drop_blocks (bytesOfNat 4) 4 i b.vec (fun x _ => length_bytesOfNat 4 x),
        List.drop_eq_getElem_cons (by omega : i < b.vec.length),
        List.flatMap_cons, List.append_assoc,
        List.take_left' (length_bytesOfNat 4 _),
        natOfBytes_bytesOfNat 4 _ (by
          have := h2 _ (List.getElem_mem (by omega : i < b.vec.length))
          norm_num
          omega)]
  · rw [hassoc, List.drop_left' hVlen, List.take_left' (length_bytesOfNat 8 _),
      natOfBytes_bytesOfNat 8 _ (by norm_num; omega)]

/-- The file written by `Build` holds the header line of bucket `i` at
byte offset `HeaderLineSize * i`. -/
theorem serializeFile_drop_header (model : List SBucket)
    (hv : ∀ b ∈ model, b.vec.length = 256) (i : ℕ) (hi : i < model.length) :
    ∃ junk, (serializeFile model).drop (HeaderLineSize * i)
      = serializeHeaderLine (model[i]) ++ junk := by
  have hlen : ∀ b ∈ model, (serializeHeaderLine b).length = HeaderLineSize :=
    fun b hb => length_serializeHeaderLine b (hv b hb)
  have hH : (model.flatMap serializeHeaderLine).length
      = HeaderLineSize * model.length :=
    flatMap_length_blocks _ _ model hlen
  rw [serializeFile,
    List.drop_append_of_le_length (by rw [hH]; exact Nat.mul_le_mul_left _ (le_of_lt hi)),
    flatMap_drop_blocks _ _ i model hlen,
    List.drop_eq_getElem_cons hi, List.flatMap_cons, List.append_assoc]
  exact ⟨_, rfl⟩

/-- C4: writing a built model with the serialisation of `Build` and
reading it back with `LoadHeader` reproduces exactly the centroid bit
patterns and the per-bucket counts, and the byte suffix after the header
region is exactly the concatenation, in bucket order, of each bucket
member entries. -/
theorem c4_index_roundtrip (model : List SBucket)
    (hv : ∀ b ∈ model, b.vec.length = 256)
    (hx : ∀ b ∈ model, ∀ x ∈ b.vec, x < 2 ^ 32)
    (hc : ∀ b ∈ model, b.count < 2 ^ 64) :
    parseHeader model.length (serializeFile model)
      = model.map (fun b => (b.vec, b.count)) ∧
    (serializeFile model).drop (HeaderLineSize * model.length)
      = model.flatMap (fun b => b.members.flatMap serializeEntry) := by
  constructor
  · apply List.ext_getElem
    · simp [parseHeader]
    · intro i hi1 hi2
      have hi : i < model.length := by simpa [parseHeader] using hi1
      simp only [parseHeader]
      rw [List.getElem_map, List.getElem_range, List.getElem_map]
      obtain ⟨junk, hseg⟩ := serializeFile_drop_header model hv i hi
      rw [hseg, parseHeaderLine_serializeHeaderLine _ junk
        (hv _ (List.getElem_mem hi)) (hx _ (List.getElem_mem hi))
        (hc _ (List.getElem_mem hi))]
  · have hH : (model.flatMap serializeHeaderLine).length
        = HeaderLineSize * model.length :=
      flatMap_length_blocks _ _ model
        (fun b hb => length_serializeHeaderLine b (hv b hb))
    rw [serializeFile, List.drop_left' hH]
    rfl

/-- Witness for the C4 round-trip theorem on a concrete two-bucket
model. -/
theorem c4_index_roundtrip_witness :
    ((∀ b ∈ wmodel, b.vec.length = 256) ∧
     (∀ b ∈ wmodel, ∀ x ∈ b.vec, x < 2 ^ 32) ∧
     (∀ b ∈ wmodel, b.count < 2 ^ 64)) ∧
    (parseHeader wmodel.length (serializeFile wmodel)
        = wmodel.map (fun b => (b.vec, b.count)) ∧
      (serializeFile wmodel).drop (HeaderLineSize * wmodel.length)
        = wmodel.flatMap (fun b => b.members.flatMap serializeEntry)) :=
  ⟨⟨by decide, by decide, by decide⟩,
    c4_index_roundtrip wmodel (by decide) (by decide) (by decide)⟩

/-- Characterisation of the accumulator of the prefix-sum fold of
`LoadHeader`. -/
theorem loadSums_foldl : ∀ (sizes acc : List ℕ) (start : ℕ),
    (sizes.foldl (fun (p : List ℕ × ℕ) v => (p.1 ++ [p.2], p.2 + v)) (acc, start)).1
      = acc ++ (List.range sizes.length).map (fun i => start + (sizes.take i).sum)
  | [], acc, start => by simp
  | v :: rest, acc, start => by
      rw [List.foldl_cons, loadSums_foldl rest (acc ++ [start]) (start + v),
        List.length_cons, List.range_succ_eq_map, List.map_cons, List.map_map]
      have hmap : List.map ((fun i => start + ((v :: rest).take i).sum) ∘ Nat.succ)
            (List.range rest.length)
          = List.map (fun i => start + v + (rest.take i).sum) (List.range rest.length) := by
        apply List.map_congr_left
        intro i _
        simp [Function.comp, List.take_succ_cons, Nat.add_assoc]
      rw [hmap]
      simp [List.append_assoc]

/-- The prefix sums returned by `LoadHeader` are the partial sums of
the count list. -/
theorem loadSums_eq (sizes : List ℕ) :
    loadSums sizes = (List.range sizes.length).map (fun i => (sizes.take i).sum) := by
  rw [loadSums, loadSums_foldl sizes [] 0]
  simp

/-- Entry `i` of the prefix sums is the sum of the first `i` counts. -/
theorem loadSums_getD (sizes : List ℕ) (i : ℕ) (hi : i < sizes.length) :
    (loadSums sizes).getD i 0 = (sizes.take i).sum := by
  rw [loadSums_eq, List.getD_eq_getElem _ _ (by simpa using hi),
    List.getElem_map, List.getElem_range]

/-- The sum of one more taken element. -/
theorem take_succ_sum (l : List ℕ) (i : ℕ) (hi : i < l.length) :
    (l.take (i + 1)).sum = (l.take i).sum + l.getD i 0 := by
  rw [List.take_succ, List.sum_append, List.getElem?_eq_getElem hi,
    List.getD_eq_getElem _ _ hi]
  simp

/-- The body block of a bucket spans `count * EntryLineSize` bytes. -/
theorem serializeBucketBody_length (b : SBucket)
    (hc : b.count = b.members.length)
    (he : ∀ e ∈ b.members, e.vec.length = 256) :
    (serializeBucketBody b).length = EntryLineSize * b.count := by
  rw [serializeBucketBody,
    flatMap_length_blocks serializeEntry EntryLineSize b.members
      (fun e hee => length_serializeEntry e (he e hee)),
    hc]

/-- The length of the concatenated body blocks of a list of buckets. -/
theorem flatMap_length_body : ∀ (l : List SBucket),
    (∀ b ∈ l, b.count = b.members.length) →
    (∀ b ∈ l, ∀ e ∈ b.members, e.vec.length = 256) →
    (l.flatMap serializeBucketBody).length
      = EntryLineSize * (l.map SBucket.count).sum
  | [], _, _ => by simp
  | b :: rest, hc, he => by
      rw [List.flatMap_cons, List.length_append,
        serializeBucketBody_length b (hc b (List.mem_cons_self b rest))
          (he b (List.mem_cons_self b rest)),
        flatMap_length_body rest (fun y hy => hc y (List.mem_cons_of_mem b hy))
          (fun y hy => he y (List.mem_cons_of_mem b hy)),
        List.map_cons, List.sum_cons]
      ring

/-- The body segment of bucket `i` sits at the offset given by the
prefix sum of the earlier counts and is exactly its serialised member
entries. -/
theorem serializeFile_body_segment (model : List SBucket)
    (hc : ∀ b ∈ model, b.count = b.members.length)
    (he : ∀ b ∈ model, ∀ e ∈ b.members, e.vec.length = 256)
    (hv : ∀ b ∈ model, b.vec.length = 256)
    (i : ℕ) (hi : i < model.length) :
    ((serializeFile model).drop
        (HeaderLineSize * model.length
          + ((model.map SBucket.count).take i).sum * EntryLineSize)).take
      ((model.map SBucket.count).getD i 0 * EntryLineSize)
      = serializeBucketBody (model[i]) := by
  have hH : (model.flatMap serializeHeaderLine).length
      = HeaderLineSize * model.length :=
    flatMap_length_blocks _ _ model
      (fun b hb => length_serializeHeaderLine b (hv b hb))
  rw [serializeFile, ← List.drop_drop, List.drop_left' hH]
  have hsplit : model.flatMap serializeBucketBody
      = (model.take i).flatMap serializeBucketBody
        ++ (model.drop i).flatMap serializeBucketBody := by
    rw [← List.flatMap_append, List.take_append_drop]
  rw [hsplit]
  have hlen1 : ((model.take i).flatMap serializeBucketBody).length
      = ((model.map SBucket.count).take i).sum * EntryLineSize := by
    rw [flatMap_length_body (model.take i)
        (fun y hy => hc y (List.mem_of_mem_take hy))
        (fun y hy => he y (List.mem_of_mem_take hy)),
      List.map_take]
    ring
  rw [List.drop_left' hlen1, List.drop_eq_getElem_cons hi, List.flatMap_cons]
  have hcnt : (model.map SBucket.count).getD i 0 = (model[i]).count := by
    rw [List.getD_eq_getElem _ _ (by simpa using hi), List.getElem_map]
  rw [List.take_left']
  rw [serializeBucketBody_length (model[i])
      (hc _ (List.getElem_mem hi)) (he _ (List.getElem_mem hi)), hcnt]
  ring

/-- C5: the persisted format arithmetic.  A header line is exactly 1032
bytes, a body entry exactly 1033 bytes; the header region of a model
occupies `bucket_count * 1032` bytes (for the built model `Offset` is
that constant), the prefix sums returned by `LoadHeader` satisfy
`sums[0] = 0` and `sums[i+1] = sums[i] + count[i]`, and the body segment
of bucket `i` starts `sums[i] * 1033` bytes after the header region and
spans `count[i] * 1033` bytes, holding exactly the serialised member
entries of bucket `i`. -/
theorem c5_persisted_format (model : List SBucket)
    (hv : ∀ b ∈ model, b.vec.length = 256)
    (hc : ∀ b ∈ model, b.count = b.members.length)
    (he : ∀ b ∈ model, ∀ e ∈ b.members, e.vec.length = 256) :
    HeaderLineSize = 1032 ∧
    EntryLineSize = 1033 ∧
    Offset = 8 * 1024 * HeaderLineSize ∧
    (∀ b ∈ model, (serializeHeaderLine b).length = HeaderLineSize) ∧
    (∀ b ∈ model, ∀ e ∈ b.members, (serializeEntry e).length = EntryLineSize) ∧
    (model.flatMap serializeHeaderLine).length = HeaderLineSize * model.length ∧
    (loadSums (model.map SBucket.count)).getD 0 0 = 0 ∧
    (∀ i, i + 1 < model.length →
      (loadSums (model.map SBucket.count)).getD (i + 1) 0
        = (loadSums (model.map SBucket.count)).getD i 0
          + (model.map SBucket.count).getD i 0) ∧
    (∀ i, ∀ hi : i < model.length,
      ((serializeFile model).drop
          (HeaderLineSize * model.length
            + (loadSums (model.map SBucket.count)).getD i 0 * EntryLineSize)).take
        ((model.map SBucket.count).getD i 0 * EntryLineSize)
        = serializeBucketBody (model.get ⟨i, hi⟩)) := by
  have hlens : (model.map SBucket.count).length = model.length := List.length_map _ _
  refine ⟨rfl, rfl, rfl, fun b hb => length_serializeHeaderLine b (hv b hb),
    fun b hb e hee => length_serializeEntry e (he b hb e hee),
    flatMap_length_blocks _ _ model
      (fun b hb => length_serializeHeaderLine b (hv b hb)),
    ?_, ?_, ?_⟩
  · rcases model with _ | ⟨b, rest⟩
    · rfl
    · rw [loadSums_getD _ 0 (by simp)]
      rfl
  · intro i hi
    rw [loadSums_getD _ (i + 1) (by omega), loadSums_getD _ i (by omega),
      take_succ_sum _ i (by omega)]
  · intro i hi
    rw [loadSums_getD _ i (by omega)]
    exact serializeFile_body_segment model hc he hv i hi

/-- Witness for the C5 format theorem on a concrete two-bucket model. -/
theorem c5_persisted_format_witness :
    ((∀ b ∈ wmodel, b.vec.length = 256) ∧
     (∀ b ∈ wmodel, b.count = b.members.length) ∧
     (∀ b ∈ wmodel, ∀ e ∈ b.members, e.vec.length = 256)) ∧
    (HeaderLineSize = 1032 ∧
      EntryLineSize = 1033 ∧
      Offset = 8 * 1024 * HeaderLineSize ∧
      (∀ b ∈ wmodel, (serializeHeaderLine b).length = HeaderLineSize) ∧
      (∀ b ∈ wmodel, ∀ e ∈ b.members, (serializeEntry e).length = EntryLineSize) ∧
      (wmodel.flatMap serializeHeaderLine).length = HeaderLineSize * wmodel.length ∧
      (loadSums (wmodel.map SBucket.count)).getD 0 0 = 0 ∧
      (∀ i, i + 1 < wmodel.length →
        (loadSums (wmodel.map SBucket.count)).getD (i + 1) 0
          = (loadSums (wmodel.map SBucket.count)).getD i 0
            + (wmodel.map SBucket.count).getD i 0) ∧
      (∀ i, ∀ hi : i < wmodel.length,
        ((serializeFile wmodel).drop
            (HeaderLineSize * wmodel.length
              + (loadSums (wmodel.map SBucket.count)).getD i 0 * EntryLineSize)).take
          ((wmodel.map SBucket.count).getD i 0 * EntryLineSize)
          = serializeBucketBody (wmodel.get ⟨i, hi⟩))) :=
  ⟨⟨by decide, by decide, by decide⟩,
    c5_persisted_format wmodel (by decide) (by decide) (by decide)⟩

/-! ### Histogram counter bounds (C10) -/

/-- The buffer-slot count of a symbol, as an indicator sum. -/
theorem bufCount_eq_sum (h : Histogram) (t : ℕ) :
    h.bufCount t = ∑ i ∈ Finset.range h.size, (if h.buffer i = t then 1 else 0) := by
  rw [Histogram.bufCount, Finset.card_filter]

/-- At most `size` buffer slots can hold a given symbol. -/
theorem bufCount_le_size (h : Histogram) (t : ℕ) : h.bufCount t ≤ h.size := by
  rw [Histogram.bufCount]
  exact le_trans (Finset.card_filter_le _ _) (le_of_eq (Finset.card_range _))

/-- How one buffer-slot update moves the slot counts: the displaced
symbol loses the slot, the stored symbol gains it. -/
theorem bufCount_update_eq (buffer : ℕ → ℕ) (size idx s t : ℕ) (hidx : idx < size) :
    ((Finset.range size).filter (fun i => Function.update buffer idx s i = t)).card
      + (if buffer idx = t then 1 else 0)
    = ((Finset.range size).filter (fun i => buffer i = t)).card
      + (if s = t then 1 else 0) := by
  have hmem : idx ∈ Finset.range size := Finset.mem_range.mpr hidx
  rw [Finset.card_filter, Finset.card_filter,
    ← Finset.sum_erase_add _ _ hmem, ← Finset.sum_erase_add _ _ hmem]
  have hcongr : ∀ i ∈ (Finset.range size).erase idx,
      (if Function.update buffer idx s i = t then 1 else 0)
        = (if buffer i = t then (1 : ℕ) else 0) := by
    intro i hi
    rw [Function.update_noteq (Finset.ne_of_mem_erase hi)]
  rw [Finset.sum_congr rfl hcongr, Function.update_same]
  omega

/-- One `Add` preserves the invariant that every symbol count is at most
the number of buffer slots holding that symbol; it preserves the size,
and when the size is at most 128 the byte increment cannot wrap. -/
theorem add_preserves_bound (h : Histogram) (s : ℕ)
    (hpos : 0 < h.size)
    (hinv : ∀ t, h.vector t ≤ h.bufCount t) :
    (∀ t, (h.add s).vector t ≤ (h.add s).bufCount t) ∧
    (h.add s).size = h.size ∧
    (h.size ≤ 128 → h.add s = h.addNoWrap s) := by
  have hidx : (h.index + 1) % h.size < h.size := Nat.mod_lt _ hpos
  set idx := (h.index + 1) % h.size with hidxdef
  set d := h.buffer idx with hd
  set v1 := if 0 < h.vector d then
      Function.update h.vector d (h.vector d - 1) else h.vector with hv1
  have hv1le : ∀ t, v1 t ≤ h.vector t := by
    intro t
    rw [hv1]
    by_cases hg : 0 < h.vector d
    · rw [if_pos hg]
      by_cases htd : t = d
      · rw [htd, Function.update_same]
        omega
      · rw [Function.update_noteq htd]
    · rw [if_neg hg]
  have haddeq : h.add s = Histogram.mk (Function.update v1 s ((v1 s + 1) % 256))
      (Function.update h.buffer idx s) idx h.size := rfl
  have hvec : ∀ u, (h.add s).vector u = Function.update v1 s ((v1 s + 1) % 256) u := by
    intro u
    rw [haddeq]
  have hbuf : ∀ t, (h.add s).bufCount t + (if d = t then 1 else 0)
      = h.bufCount t + (if s = t then 1 else 0) := by
    intro t
    rw [haddeq, Histogram.bufCount, Histogram.bufCount]
    exact bufCount_update_eq h.buffer h.size idx s t hidx
  refine ⟨?_, rfl, ?_⟩
  · intro t
    rw [hvec t]
    by_cases hts : t = s
    · rw [hts, Function.update_same]
      have hmod : (v1 s + 1) % 256 ≤ v1 s + 1 := Nat.mod_le _ _
      have hb := hbuf s
      rw [if_pos rfl] at hb
      by_cases hds : d = s
      · rw [if_pos hds] at hb
        by_cases hg : 0 < h.vector d
        · have hv1s : v1 s = h.vector s - 1 := by
            rw [hv1, if_pos hg, hds, Function.update_same]
          have hg2 : 0 < h.vector s := by
            rw [← hds]
            exact hg
          have := hinv s
          omega
        · have hv1s : v1 s = h.vector s := by rw [hv1, if_neg hg]
          have hvz : h.vector s = 0 := by
            rw [← hds]
            omega
          have hone : 1 ≤ (h.add s).bufCount s := by
            rw [haddeq, Histogram.bufCount]
            apply Finset.card_pos.mpr
            refine ⟨idx, Finset.mem_filter.mpr ⟨Finset.mem_range.mpr hidx, ?_⟩⟩
            show Function.update h.buffer idx s idx = s
            rw [Function.update_same]
          omega
      · rw [if_neg hds] at hb
        have hv1s : v1 s = h.vector s := by
          rw [hv1]
          by_cases hg : 0 < h.vector d
          · rw [if_pos hg, Function.update_noteq (fun hh => hds hh.symm)]
          · rw [if_neg hg]
        have := hinv s
        omega
    · rw [Function.update_noteq hts]
      have hb := hbuf t
      rw [if_neg (show ¬(s = t) from fun hh => hts hh.symm)] at hb
      by_cases htd : d = t
      · rw [if_pos htd] at hb
        by_cases hg : 0 < h.vector d
        · have hv1t : v1 t = h.vector t - 1 := by
            rw [hv1, if_pos hg, htd, Function.update_same]
          have := hinv t
          omega
        · have hv1t : v1 t = h.vector t := by rw [hv1, if_neg hg]
          have hvz : h.vector t = 0 := by
            rw [← htd]
            omega
          omega
      · rw [if_neg htd] at hb
        have hv1t : v1 t = h.vector t := by
          rw [hv1]
          by_cases hg : 0 < h.vector d
          · rw [if_pos hg, Function.update_noteq (fun hh => htd hh.symm)]
          · rw [if_neg hg]
        have := hinv t
        omega
  · intro h128
    have hlt : v1 s + 1 < 256 := by
      have h1 := hv1le s
      have h2 := hinv s
      have h3 := bufCount_le_size h s
      omega
    have hnw : h.addNoWrap s = Histogram.mk (Function.update v1 s (v1 s + 1))
        (Function.update h.buffer idx s) idx h.size := rfl
    rw [haddeq, hnw, Nat.mod_eq_of_lt hlt]

/-- The invariant holds after any sequence of `Add` calls, the size is
preserved, and no byte counter ever wraps. -/
theorem addAll_bound : ∀ (ws : List ℕ) (h : Histogram),
    0 < h.size → h.size ≤ 128 → (∀ t, h.vector t ≤ h.bufCount t) →
    (∀ t, (h.addAll ws).vector t ≤ (h.addAll ws).bufCount t) ∧
    (h.addAll ws).size = h.size ∧
    h.addAllNoWrap ws = h.addAll ws
  | [], _, _, _, hinv => ⟨hinv, rfl, rfl⟩
  | w :: rest, h, hpos, h128, hinv => by
      obtain ⟨hstep, hsize, heq⟩ := add_preserves_bound h w hpos hinv
      obtain ⟨ih1, ih2, ih3⟩ := addAll_bound rest (h.add w)
        (by rw [hsize]; exact hpos) (by rw [hsize]; exact h128) hstep
      refine ⟨ih1, ?_, ?_⟩
      · show ((h.add w).addAll rest).size = h.size
        rw [ih2, hsize]
      · show ((h.addNoWrap w).addAllNoWrap rest) = ((h.add w).addAll rest)
        rw [← heq h128]
        exact ih3

/-- The total count is at most the size. -/
theorem total_le_size (h : Histogram)
    (hinv : ∀ t, h.vector t ≤ h.bufCount t) : h.total ≤ h.size := by
  have h1 : h.total ≤ ∑ t ∈ Finset.range 256, h.bufCount t :=
    Finset.sum_le_sum (fun t _ => hinv t)
  have key : ∀ t ∈ Finset.range 256,
      h.bufCount t = (((Finset.range h.size).filter (fun i => h.buffer i < 256)).filter
        (fun i => h.buffer i = t)).card := by
    intro t ht
    rw [Histogram.bufCount]
    congr 1
    ext i
    simp only [Finset.mem_filter, Finset.mem_range]
    constructor
    · intro hi
      exact ⟨⟨hi.1, by rw [hi.2]; exact Finset.mem_range.mp ht⟩, hi.2⟩
    · intro hi
      exact ⟨hi.1.1, hi.2⟩
  have h2 : ∑ t ∈ Finset.range 256, h.bufCount t
      = ((Finset.range h.size).filter (fun i => h.buffer i < 256)).card := by
    rw [Finset.sum_congr rfl key]
    rw [← Finset.card_eq_sum_card_fiberwise
      (fun i hi => Finset.mem_range.mpr (Finset.mem_filter.mp hi).2)]
  have h3 : ((Finset.range h.size).filter (fun i => h.buffer i < 256)).card ≤ h.size :=
    le_trans (Finset.card_filter_le _ _) (le_of_eq (Finset.card_range _))
  omega

/-- C10: over any sequence of byte `Add` calls on a fresh histogram of
size `S` with `1 ≤ S ≤ 128`, every per-symbol counter stays at most `S`,
the total count stays at most `S`, and the run with plain natural-number
increments coincides with the run with byte (`% 256`) increments: no
byte counter ever wraps. -/
theorem c10_histogram_counters_bounded (S : ℕ) (ws : List ℕ)
    (hS1 : 1 ≤ S) (hS2 : S ≤ 128) (hws : ∀ x ∈ ws, x < 256) :
    (∀ t, ((newHistogram S).addAll ws).vector t ≤ S) ∧
    ((newHistogram S).addAll ws).total ≤ S ∧
    (newHistogram S).addAllNoWrap ws = (newHistogram S).addAll ws := by
  obtain ⟨hinv, hsize, heq⟩ := addAll_bound ws (newHistogram S) hS1 hS2
    (fun t => Nat.zero_le _)
  refine ⟨?_, ?_, heq⟩
  · intro t
    calc ((newHistogram S).addAll ws).vector t
        ≤ ((newHistogram S).addAll ws).bufCount t := hinv t
      _ ≤ ((newHistogram S).addAll ws).size := bufCount_le_size _ t
      _ = S := hsize
  · calc ((newHistogram S).addAll ws).total
        ≤ ((newHistogram S).addAll ws).size := total_le_size _ hinv
      _ = S := hsize

/-- Projection of `Histogram.add`: the new index. -/
theorem add_index (h : Histogram) (s : ℕ) :
    (h.add s).index = (h.index + 1) % h.size := rfl

/-- Projection of `Histogram.add`: the size is unchanged. -/
theorem add_size (h : Histogram) (s : ℕ) : (h.add s).size = h.size := rfl

/-- Projection of `Histogram.add`: the buffer slot is overwritten. -/
theorem add_buffer (h : Histogram) (s : ℕ) :
    (h.add s).buffer = Function.update h.buffer ((h.index + 1) % h.size) s := rfl

/-- The count update of `Histogram.add` when the displaced symbol has a
zero count: only the added symbol is incremented. -/
theorem add_vector_of_not_guard (h : Histogram) (s : ℕ)
    (hg : ¬ 0 < h.vector (h.buffer ((h.index + 1) % h.size))) :
    (h.add s).vector = Function.update h.vector s ((h.vector s + 1) % 256) := by
  simp only [Histogram.add, if_neg hg]

/-- The count update of `Histogram.add` when the displaced symbol has a
positive count: it is decremented before the added symbol is
incremented. -/
theorem add_vector_of_guard (h : Histogram) (s : ℕ)
    (hg : 0 < h.vector (h.buffer ((h.index + 1) % h.size))) :
    (h.add s).vector = Function.update
      (Function.update h.vector (h.buffer ((h.index + 1) % h.size))
        (h.vector (h.buffer ((h.index + 1) % h.size)) - 1)) s
      ((Function.update h.vector (h.buffer ((h.index + 1) % h.size))
        (h.vector (h.buffer ((h.index + 1) % h.size)) - 1) s + 1) % 256) := by
  simp only [Histogram.add, if_pos hg]

/-- Appending one symbol to the fold. -/
theorem addAll_append_singleton (h : Histogram) (ws : List ℕ) (w : ℕ) :
    h.addAll (ws ++ [w]) = (h.addAll ws).add w := by
  rw [Histogram.addAll, List.foldl_append]
  rfl

/-- Witness for the C10 theorem at a concrete input. -/
theorem c10_histogram_counters_bounded_witness :
    (1 ≤ 2 ∧ 2 ≤ 128 ∧ (∀ x ∈ [0, 5, 5, 7], x < 256)) ∧
    ((∀ t, ((newHistogram 2).addAll [0, 5, 5, 7]).vector t ≤ 2) ∧
      ((newHistogram 2).addAll [0, 5, 5, 7]).total ≤ 2 ∧
      (newHistogram 2).addAllNoWrap [0, 5, 5, 7]
        = (newHistogram 2).addAll [0, 5, 5, 7]) :=
  ⟨⟨by decide, by decide, by decide⟩,
    c10_histogram_counters_bounded 2 [0, 5, 5, 7] (by decide) (by decide) (by decide)⟩

/-- Full characterisation of a fresh histogram of size `S` after a
sequence of positive byte additions: size and index, the window slots of
the circular buffer, the still-untouched slots, and the count vector as
the multiset of the last `min N S` symbols.  Symbol `0` is excluded
because it collides with the zero-initialised buffer slots. -/
theorem addAll_window (S : ℕ) (hS1 : 1 ≤ S) (hS2 : S ≤ 128) :
    ∀ ws : List ℕ, (∀ x ∈ ws, 0 < x ∧ x < 256) →
    ((newHistogram S).addAll ws).size = S ∧
    ((newHistogram S).addAll ws).index = ws.length % S ∧
    (∀ p, ws.length - min ws.length S ≤ p → p < ws.length →
      ((newHistogram S).addAll ws).buffer ((p + 1) % S) = ws.getD p 0) ∧
    (ws.length < S → ∀ i < S, (∀ p < ws.length, i ≠ (p + 1) % S) →
      ((newHistogram S).addAll ws).buffer i = 0) ∧
    (∀ t, ((newHistogram S).addAll ws).vector t
      = (ws.drop (ws.length - min ws.length S)).count t) := by
  intro ws
  induction ws using List.reverseRecOn with
  | nil =>
      intro _
      refine ⟨rfl, by simp [Histogram.addAll, newHistogram], ?_, ?_, ?_⟩
      · intro p _ hp
        simp at hp
      · intro _ i _ _
        rfl
      · intro t
        simp [Histogram.addAll, newHistogram]
  | append_singleton ws w ih =>
      intro hall
      obtain ⟨hsize, hidx, hbufw, hzero, hvec⟩ :=
        ih (fun x hx => hall x (List.mem_append_left _ hx))
      have hw : 0 < w ∧ w < 256 :=
        hall w (List.mem_append_right _ (List.mem_singleton.mpr rfl))
      have haddall : (newHistogram S).addAll (ws ++ [w])
          = ((newHistogram S).addAll ws).add w := addAll_append_singleton _ ws w
      set H := (newHistogram S).addAll ws with hH
      set N := ws.length with hN
      have hidx2 : (H.index + 1) % H.size = (N + 1) % S := by
        rw [hsize, hidx]
        exact (Nat.mod_modEq N S).add_right 1
      have hlen2 : (ws ++ [w]).length = N + 1 := by
        rw [List.length_append, List.length_singleton]
      by_cases hlt : N < S
      · -- the buffer has not wrapped yet: the displaced slot is a
        -- zero-initialised phantom slot
        have hmin : min N S = N := min_eq_left (le_of_lt hlt)
        have hmin2 : min (N + 1) S = N + 1 := min_eq_left (by omega)
        rw [hmin] at hbufw
        have hvec0 : ∀ t, H.vector t = ws.count t := by
          intro t
          rw [hvec t, hmin, Nat.sub_self, List.drop_zero]
        have hdisp : H.buffer ((N + 1) % S) = 0 := by
          apply hzero hlt ((N + 1) % S) (Nat.mod_lt _ (by omega))
          intro p hp
          have hp1 : (p + 1) % S = p + 1 := Nat.mod_eq_of_lt (by omega)
          by_cases hNS1 : N + 1 < S
          · rw [hp1, Nat.mod_eq_of_lt hNS1]
            omega
          · have hNS2 : N + 1 = S := by omega
            rw [hp1, hNS2, Nat.mod_self]
            omega
        have hnot0 : ws.count 0 = 0 := by
          apply List.count_eq_zero.mpr
          intro hmem
          exact absurd (hall 0 (List.mem_append_left _ hmem)).1 (lt_irrefl 0)
        have hguard : ¬ 0 < H.vector (H.buffer ((H.index + 1) % H.size)) := by
          rw [hidx2, hdisp, hvec0 0, hnot0]
          omega
        have hvadd := add_vector_of_not_guard H w hguard
        have hnowrap : (H.vector w + 1) % 256 = H.vector w + 1 := by
          apply Nat.mod_eq_of_lt
          have h1 : ws.count w ≤ N := List.count_le_length w ws
          have h2 := hvec0 w
          omega
        refine ⟨?_, ?_, ?_, ?_, ?_⟩
        · rw [haddall, add_size, hsize]
        · rw [haddall, add_index, hidx2, hlen2]
        · intro p hp1 hp2
          rw [hlen2] at hp2
          rw [haddall, add_buffer, hidx2]
          by_cases hpN : p = N
          · rw [hpN, Function.update_same,
              List.getD_append_right _ _ _ _ (le_of_eq hN.symm), ← hN,
              Nat.sub_self]
            rfl
          · have hplt : p < N := by omega
            have hp3 : (p + 1) % S = p + 1 := Nat.mod_eq_of_lt (by omega)
            have hne : (p + 1) % S ≠ (N + 1) % S := by
              by_cases hNS1 : N + 1 < S
              · rw [hp3, Nat.mod_eq_of_lt hNS1]
                omega
              · have hNS2 : N + 1 = S := by omega
                rw [hp3, hNS2, Nat.mod_self]
                omega
            rw [Function.update_noteq hne, List.getD_append _ _ _ _ (by omega)]
            exact hbufw p (by omega) hplt
        · intro hlenS i hi hcov
          rw [hlen2] at hcov
          rw [haddall, add_buffer, hidx2]
          have hiN : i ≠ (N + 1) % S := hcov N (by omega)
          rw [Function.update_noteq hiN]
          exact hzero hlt i hi (fun p hp => hcov p (by omega))
        · intro t
          rw [haddall, hvadd, hlen2, hmin2, Nat.sub_self, List.drop_zero,
            List.count_append]
          by_cases htw : t = w
          · rw [htw, Function.update_same, hnowrap, hvec0 w,
              List.count_singleton_self]
          · rw [Function.update_noteq htw, hvec0 t]
            have hsing : List.count t [w] = 0 := by
              rw [List.count_singleton]
              simp [Ne.symm htw]
            rw [hsing]
            omega
      · -- the buffer has wrapped: the displaced slot holds the symbol
        -- leaving the window
        have hge : S ≤ N := by omega
        have hmin : min N S = S := min_eq_right hge
        have hmin2 : min (N + 1) S = S := min_eq_right (by omega)
        rw [hmin] at hbufw
        have hvecw : ∀ t, H.vector t = (ws.drop (N - S)).count t := by
          intro t
          rw [hvec t, hmin]
        have hslot : (N - S + 1) % S = (N + 1) % S := by
          have h1 : N - S + 1 = N + 1 - S := by omega
          rw [h1, ← Nat.mod_eq_sub_mod (by omega : S ≤ N + 1)]
        have hdisp : H.buffer ((N + 1) % S) = ws.getD (N - S) 0 := by
          rw [← hslot]
          exact hbufw (N - S) (le_refl _) (by omega)
        have hwin_cons : ws.drop (N - S)
            = ws.getD (N - S) 0 :: ws.drop (N - S + 1) := by
          rw [List.getD_eq_getElem _ _ (by omega : N - S < ws.length)]
          exact List.drop_eq_getElem_cons (by omega)
        have hcpos : 0 < H.vector (ws.getD (N - S) 0) := by
          rw [hvecw, hwin_cons, List.count_cons]
          simp
        have hguard : 0 < H.vector (H.buffer ((H.index + 1) % H.size)) := by
          rw [hidx2, hdisp]
          exact hcpos
        have hvadd := add_vector_of_guard H w hguard
        have hsymd : H.buffer ((H.index + 1) % H.size) = ws.getD (N - S) 0 := by
          rw [hidx2]
          exact hdisp
        rw [hsymd] at hvadd
        set d := ws.getD (N - S) 0 with hdd
        set v1 := Function.update H.vector d (H.vector d - 1) with hv1
        have hv1w : v1 w ≤ H.vector w := by
          rw [hv1]
          by_cases hwd : w = d
          · rw [hwd, Function.update_same]
            omega
          · rw [Function.update_noteq hwd]
        have hnowrap : (v1 w + 1) % 256 = v1 w + 1 := by
          apply Nat.mod_eq_of_lt
          have h1 : (ws.drop (N - S)).count w ≤ (ws.drop (N - S)).length :=
            List.count_le_length w _
          have h2 : (ws.drop (N - S)).length = S := by
            rw [List.length_drop]
            omega
          have h3 := hvecw w
          omega
        refine ⟨?_, ?_, ?_, ?_, ?_⟩
        · rw [haddall, add_size, hsize]
        · rw [haddall, add_index, hidx2, hlen2]
        · intro p hp1 hp2
          rw [hlen2] at hp2
          rw [hlen2, hmin2] at hp1
          rw [haddall, add_buffer, hidx2]
          by_cases hpN : p = N
          · rw [hpN, Function.update_same,
              List.getD_append_right _ _ _ _ (le_of_eq hN.symm), ← hN,
              Nat.sub_self]
            rfl
          · have hplt : p < N := by omega
            have hne : (p + 1) % S ≠ (N + 1) % S := by
              intro heq
              have h2 := (Nat.modEq_iff_dvd' (by omega : p + 1 ≤ N + 1)).mp heq
              have h4 : 0 < N + 1 - (p + 1) := by omega
              have h5 := Nat.le_of_dvd h4 h2
              omega
            rw [Function.update_noteq hne, List.getD_append _ _ _ _ (by omega)]
            exact hbufw p (by omega) hplt
        · intro hlenS
          rw [hlen2] at hlenS
          exact absurd hlenS (by omega)
        · intro t
          rw [haddall, hvadd, hlen2, hmin2]
          have hdrop_app : (ws ++ [w]).drop (N + 1 - S)
              = ws.drop (N - S + 1) ++ [w] := by
            have h1 : N + 1 - S = N - S + 1 := by omega
            rw [List.drop_append_of_le_length (by omega), h1]
          rw [hdrop_app, List.count_append]
          have hcount : H.vector t = (ws.drop (N - S + 1)).count t
              + (if t = d then 1 else 0) := by
            rw [hvecw, hwin_cons, List.count_cons]
            by_cases h : t = d
            · simp [h]
            · simp [h, Ne.symm h]
          by_cases htw : t = w
          · rw [htw, Function.update_same, hnowrap, List.count_singleton_self]
            by_cases hwd : w = d
            · have hv1w2 : v1 w = H.vector w - 1 := by
                rw [hv1, hwd, Function.update_same]
              have hcpos2 : 0 < H.vector w := by
                rw [hwd]
                exact hcpos
              have hcw := hcount
              rw [htw, if_pos hwd] at hcw
              omega
            · have hv1w2 : v1 w = H.vector w := by
                rw [hv1, Function.update_noteq hwd]
              have hcw := hcount
              rw [htw, if_neg hwd] at hcw
              omega
          · rw [Function.update_noteq htw]
            have hsing : List.count t [w] = 0 := by
              rw [List.count_singleton]
              simp [Ne.symm htw]
            rw [hsing]
            by_cases htd : t = d
            · have hv1t : v1 t = H.vector t - 1 := by
                rw [hv1, htd, Function.update_same]
              have hct := hcount
              rw [if_pos htd] at hct
              omega
            · have hv1t : v1 t = H.vector t := by
                rw [hv1, Function.update_noteq htd]
              have hct := hcount
              rw [if_neg htd] at hct
              omega

/-- Summing the per-symbol counts of a list of bytes over all 256
symbols gives the length of the list. -/
theorem sum_count_eq_length : ∀ l : List ℕ, (∀ x ∈ l, x < 256) →
    ∑ t ∈ Finset.range 256, l.count t = l.length
  | [], _ => by simp
  | a :: l, hl => by
      have ha : a ∈ Finset.range 256 :=
        Finset.mem_range.mpr (hl a (List.mem_cons_self a l))
      have hrec := sum_count_eq_length l (fun x hx => hl x (List.mem_cons_of_mem a hx))
      have hcc : ∀ t ∈ Finset.range 256,
          (a :: l).count t = l.count t + (if t = a then 1 else 0) := by
        intro t _
        rw [List.count_cons]
        by_cases h : t = a
        · simp [h]
        · simp [h, Ne.symm h]
      rw [Finset.sum_congr rfl hcc, Finset.sum_add_distrib, hrec,
        Finset.sum_ite_eq' (Finset.range 256) a (fun _ => 1), if_pos ha,
        List.length_cons]

/-- C3 counterexample: on a fresh histogram of capacity 2, adding the
sequence `[0, 5]` leaves a count vector of total 1, not
`min(2, 2) = 2`: the addition of byte `0` is later cancelled when a
zero-initialised buffer slot is displaced, because the slot content is
indistinguishable from the real symbol `0`. -/
theorem c3_counterexample :
    ((newHistogram 2).addAll [0, 5]).total = 1 ∧
    min (List.length ([0, 5] : List ℕ)) 2 = 2 ∧ (1 : ℕ) ≠ 2 := by
  refine ⟨by decide, by decide, by decide⟩

/-- C3 amended: for sequences of nonzero bytes (byte `0` collides with
the zero-initialised buffer and can make the total fall short), after
`N` additions on a fresh histogram of capacity `S` with
`1 ≤ S ≤ 128`, the count vector sums to `min N S`, every entry is
nonnegative, and the vector is exactly the multiset of the last
`min N S` symbols added. -/
theorem c3_histogram_window_amended (S : ℕ) (ws : List ℕ)
    (hS1 : 1 ≤ S) (hS2 : S ≤ 128)
    (hws : ∀ x ∈ ws, 0 < x ∧ x < 256) :
    ((newHistogram S).addAll ws).total = min ws.length S ∧
    (∀ t, 0 ≤ ((newHistogram S).addAll ws).vector t) ∧
    (∀ t, ((newHistogram S).addAll ws).vector t
      = (ws.drop (ws.length - min ws.length S)).count t) := by
  obtain ⟨-, -, -, -, hvec⟩ := addAll_window S hS1 hS2 ws hws
  refine ⟨?_, fun t => Nat.zero_le _, hvec⟩
  rw [Histogram.total, Finset.sum_congr rfl (fun t _ => hvec t),
    sum_count_eq_length _ (fun x hx => (hws x (List.mem_of_mem_drop hx)).2),
    List.length_drop]
  omega

/-- Witness for the amended C3 theorem at a concrete input. -/
theorem c3_histogram_window_amended_witness :
    (1 ≤ 2 ∧ 2 ≤ 128 ∧ (∀ x ∈ ([5, 6, 5] : List ℕ), 0 < x ∧ x < 256)) ∧
    (((newHistogram 2).addAll [5, 6, 5]).total = min (List.length ([5, 6, 5] : List ℕ)) 2 ∧
      (∀ t, 0 ≤ ((newHistogram 2).addAll [5, 6, 5]).vector t) ∧
      (∀ t, ((newHistogram 2).addAll [5, 6, 5]).vector t
        = (([5, 6, 5] : List ℕ).drop
            (List.length ([5, 6, 5] : List ℕ)
              - min (List.length ([5, 6, 5] : List ℕ)) 2)).count t)) :=
  ⟨⟨by decide, by decide, by decide⟩,
    c3_histogram_window_amended 2 [5, 6, 5] (by decide) (by decide) (by decide)⟩

end Soda
